import Mathlib

/-!
Shallow embedding of the prompt composition engine of this repository
(`src/tools/prompt_composer.py` together with the pieces of
`src/tools/prompt_registry.py` it calls), and proofs about it.

Python strings are modelled as lists of characters, dictionaries that only
ever grow at the end (`OrderedDict`) as association lists appended on the
right, and the loops of the source as `List.foldl` over the same state the
Python code threads through the loop.
-/

/-- A Python `str`, modelled as a list of characters. -/
abbrev Content := List Char

/-- The whitespace class used by the source through `re`'s `\s`, `str.split()`
    and `str.strip()`: space, tab, newline, carriage return, vertical tab and
    form feed. -/
def isSpace (c : Char) : Bool :=
  c == ' ' || c == '\t' || c == '\n' || c == '\r' || c == '\x0b' || c == '\x0c'

/-- `estimate_tokens` from `prompt_registry.py`: `int(len(text) * TOKEN_RATIO)`
    with `TOKEN_RATIO = 0.25`.  Multiplying a nonnegative integer by the float
    `0.25` is exact (0.25 is a power of two), and `int` truncates towards zero,
    so the result is exactly the integer division of the length by 4. -/
def estimate_tokens (text : Content) : Nat := text.length / 4

/-- The token formula as the spec words it: `floor(len(text) * ratio)` with the
    default ratio 0.25. -/
def specTokenEstimate (text : Content) : Nat := ⌊(text.length : ℚ) * (1/4 : ℚ)⌋₊

/-- Python `separator.join(xs)`. -/
def joinSep (sep : Content) : List Content → Content
  | [] => []
  | [x] => x
  | x :: y :: xs => x ++ sep ++ joinSep sep (y :: xs)

/-- The `trimmed_info` dictionary built by `trim_to_budget`. -/
structure TrimInfo where
  kept_prompts : Nat
  dropped_prompts : Nat
deriving DecidableEq

/-- Body of the loop of `trim_to_budget`: the state is the `trimmed` list of
    kept blocks, the running token total `current_tokens`, and the counters. -/
def trimStep (max_tokens : Nat) (st : List Content × Nat × TrimInfo) (content : Content) :
    List Content × Nat × TrimInfo :=
  let content_tokens := estimate_tokens content
  if st.2.1 + content_tokens ≤ max_tokens then
    (st.1 ++ [content], st.2.1 + content_tokens,
      ⟨st.2.2.kept_prompts + 1, st.2.2.dropped_prompts⟩)
  else
    (st.1, st.2.1, ⟨st.2.2.kept_prompts, st.2.2.dropped_prompts + 1⟩)

/-- `trim_to_budget` from `prompt_composer.py`. -/
def trim_to_budget (contents : List Content) (max_tokens : Nat) (separator : Content) :
    Content × TrimInfo :=
  let st := contents.foldl (trimStep max_tokens) ([], 0, ⟨0, 0⟩)
  (joinSep separator st.1, st.2.2)

/-- The kept blocks of the greedy trimmer, written the way the spec describes
    the algorithm: visit blocks in order, keep a block exactly when the running
    total of kept estimates plus its own estimate fits the budget, and keep
    going past a dropped block. -/
def trimKeep (max_tokens : Nat) : Nat → List Content → List Content
  | _, [] => []
  | current, content :: rest =>
    if current + estimate_tokens content ≤ max_tokens then
      content :: trimKeep max_tokens (current + estimate_tokens content) rest
    else trimKeep max_tokens current rest

theorem trimKeep_sublist (max_tokens : Nat) :
    ∀ (contents : List Content) (current : Nat),
      List.Sublist (trimKeep max_tokens current contents) contents := by
  intro contents
  induction contents with
  | nil => intro current; simp [trimKeep]
  | cons c rest ih =>
    intro current
    rw [trimKeep]
    by_cases h : current + estimate_tokens c ≤ max_tokens
    · rw [if_pos h]; exact List.Sublist.cons₂ c (ih _)
    · rw [if_neg h]; exact List.Sublist.cons c (ih _)

theorem trimKeep_length_le (max_tokens current : Nat) (contents : List Content) :
    (trimKeep max_tokens current contents).length ≤ contents.length :=
  (trimKeep_sublist max_tokens contents current).length_le

/-- Unfolding the fold of `trim_to_budget` into the structural description. -/
theorem trimFold (max_tokens : Nat) :
    ∀ (contents : List Content) (acc : List Content) (current : Nat) (info : TrimInfo),
      contents.foldl (trimStep max_tokens) (acc, current, info) =
        (acc ++ trimKeep max_tokens current contents,
         current + ((trimKeep max_tokens current contents).map estimate_tokens).sum,
         ⟨info.kept_prompts + (trimKeep max_tokens current contents).length,
          info.dropped_prompts +
            (contents.length - (trimKeep max_tokens current contents).length)⟩) := by
  intro contents
  induction contents with
  | nil => intro acc current info; simp [trimKeep]
  | cons c rest ih =>
    intro acc current info
    rw [List.foldl_cons, trimKeep]
    by_cases h : current + estimate_tokens c ≤ max_tokens
    · rw [if_pos h]
      have hstep : trimStep max_tokens (acc, current, info) c =
          (acc ++ [c], current + estimate_tokens c,
            ⟨info.kept_prompts + 1, info.dropped_prompts⟩) := by
        simp [trimStep, h]
      rw [hstep, ih]
      have hlen := trimKeep_length_le max_tokens (current + estimate_tokens c) rest
      simp only [Prod.mk.injEq, TrimInfo.mk.injEq, List.map_cons, List.sum_cons,
        List.length_cons]
      refine ⟨by simp, by ring, by omega, by omega⟩
    · rw [if_neg h]
      have hstep : trimStep max_tokens (acc, current, info) c =
          (acc, current, ⟨info.kept_prompts, info.dropped_prompts + 1⟩) := by
        simp [trimStep, h]
      rw [hstep, ih]
      have hlen := trimKeep_length_le max_tokens current rest
      simp only [Prod.mk.injEq, TrimInfo.mk.injEq, List.length_cons]
      refine ⟨trivial, trivial, trivial, by omega⟩

theorem trim_to_budget_eq (contents : List Content) (max_tokens : Nat) (separator : Content) :
    trim_to_budget contents max_tokens separator =
      (joinSep separator (trimKeep max_tokens 0 contents),
       ⟨(trimKeep max_tokens 0 contents).length,
        contents.length - (trimKeep max_tokens 0 contents).length⟩) := by
  unfold trim_to_budget
  rw [trimFold]
  simp

/-- When the budget covers the whole running total, every block is kept. -/
theorem trimKeep_all (max_tokens : Nat) :
    ∀ (contents : List Content) (current : Nat),
      current + (contents.map estimate_tokens).sum ≤ max_tokens →
      trimKeep max_tokens current contents = contents := by
  intro contents
  induction contents with
  | nil => intro current _; simp [trimKeep]
  | cons c rest ih =>
    intro current h
    simp only [List.map_cons, List.sum_cons] at h
    have hc : current + estimate_tokens c ≤ max_tokens := by omega
    rw [trimKeep, if_pos hc, ih (current + estimate_tokens c) (by omega)]

/-- The running total of kept estimates never exceeds the budget. -/
theorem trimKeep_sum_le (max_tokens : Nat) :
    ∀ (contents : List Content) (current : Nat),
      current ≤ max_tokens →
      current + ((trimKeep max_tokens current contents).map estimate_tokens).sum ≤
        max_tokens := by
  intro contents
  induction contents with
  | nil => intro current h; simpa [trimKeep]
  | cons c rest ih =>
    intro current h
    rw [trimKeep]
    by_cases hc : current + estimate_tokens c ≤ max_tokens
    · rw [if_pos hc]
      have := ih (current + estimate_tokens c) hc
      simp only [List.map_cons, List.sum_cons]
      omega
    · rw [if_neg hc]
      exact ih current h

/-- If the blocks do not all fit, at least one is dropped. -/
theorem trimKeep_lt_of_sum_gt (max_tokens : Nat) (contents : List Content)
    (h : max_tokens < (contents.map estimate_tokens).sum) :
    (trimKeep max_tokens 0 contents).length < contents.length := by
  have hsub := trimKeep_sublist max_tokens contents 0
  rcases Nat.lt_or_ge (trimKeep max_tokens 0 contents).length contents.length with hlt | hge
  · exact hlt
  · exfalso
    have heq : trimKeep max_tokens 0 contents = contents :=
      hsub.eq_of_length (Nat.le_antisymm hsub.length_le hge)
    have := trimKeep_sum_le max_tokens contents 0 (Nat.zero_le _)
    rw [heq] at this
    omega

/-- C8: for every text, the estimator returns `floor(len(text) * ratio)` with
    the default ratio 0.25, and the empty text estimates to 0.  The estimator
    is a pure function of the text with no error outcome. -/
theorem estimate_tokens_floor_ratio :
    (∀ text : Content, estimate_tokens text = specTokenEstimate text) ∧
      estimate_tokens ([] : Content) = 0 := by
  constructor
  · intro text
    unfold estimate_tokens specTokenEstimate
    have h4 : ((text.length : ℚ) * (1/4 : ℚ)) = (text.length : ℚ) / ((4 : ℕ) : ℚ) := by
      push_cast
      ring
    rw [h4, Nat.floor_div_nat, Nat.floor_natCast]
  · rfl

/-- C7: the trimmer never splits a block.  Its output is the separator-join of
    the greedy kept list, which is a subsequence of the input blocks taken
    verbatim; a block is kept exactly when the running total of kept estimates
    plus its own estimate fits the budget; kept and dropped counts sum to the
    number of blocks; and iteration continues past a dropped block (with a
    budget of 1 token, an 8-character first block is dropped yet the
    4-character block after it is kept). -/
theorem trim_never_splits (contents : List Content) (max_tokens : Nat) (separator : Content) :
    trim_to_budget contents max_tokens separator =
        (joinSep separator (trimKeep max_tokens 0 contents),
         ⟨(trimKeep max_tokens 0 contents).length,
          contents.length - (trimKeep max_tokens 0 contents).length⟩) ∧
      List.Sublist (trimKeep max_tokens 0 contents) contents ∧
      (trim_to_budget contents max_tokens separator).2.kept_prompts +
          (trim_to_budget contents max_tokens separator).2.dropped_prompts =
        contents.length ∧
      trimKeep 1 0 [List.replicate 8 'a', List.replicate 4 'b'] = [List.replicate 4 'b'] := by
  refine ⟨trim_to_budget_eq contents max_tokens separator,
    trimKeep_sublist max_tokens contents 0, ?_, by decide⟩
  rw [trim_to_budget_eq]
  have := trimKeep_length_le max_tokens 0 contents
  simp
  omega

/-- C2 counterexample: with blocks of 44, 20 and 20 characters (11, 5 and 5
    estimated tokens), the budget 10 keeps two blocks but the larger budget 11
    keeps only one, so the kept-block count is not monotone in the budget. -/
theorem trim_monotone_counterexample :
    (10 : Nat) ≤ 11 ∧
      (trim_to_budget [List.replicate 44 'a', List.replicate 20 'b', List.replicate 20 'c']
          11 []).2.kept_prompts <
        (trim_to_budget [List.replicate 44 'a', List.replicate 20 'b', List.replicate 20 'c']
          10 []).2.kept_prompts := by
  constructor
  · decide
  · decide

/-- C2 amended: the kept-block count is not monotone in the budget in general;
    it is monotone whenever the larger budget covers the sum of all blocks'
    token estimates, for then every block is kept. -/
theorem trim_monotone_of_total_fits (contents : List Content) (b1 b2 : Nat)
    (separator : Content) (hb : b1 ≤ b2)
    (htotal : (contents.map estimate_tokens).sum ≤ b2) :
    (trim_to_budget contents b1 separator).2.kept_prompts ≤
      (trim_to_budget contents b2 separator).2.kept_prompts := by
  rw [trim_to_budget_eq, trim_to_budget_eq]
  simp only
  rw [trimKeep_all b2 contents 0 (by simpa using htotal)]
  exact trimKeep_length_le b1 0 contents

theorem trim_monotone_of_total_fits_witness :
    (trim_to_budget [List.replicate 4 'a'] 1 []).2.kept_prompts ≤
      (trim_to_budget [List.replicate 4 'a'] 1 []).2.kept_prompts :=
  trim_monotone_of_total_fits [List.replicate 4 'a'] 1 1 [] (by decide) (by decide)

/-! ### The paragraph deduplicator -/

/-- Two newlines, the join string of `deduplicate_content`
    (`'\n\n'.join(unique_paragraphs)`). -/
def nl2 : Content := ['\n', '\n']

/-- The `"..."` appended to a duplicate's 50-character preview. -/
def ellipsis : Content := ['.', '.', '.']

/-- Does a pending whitespace run complete a `\n\s*\n` match, i.e. hold at
    least two newlines? -/
def hasTwoNl (pend : Content) : Bool := 2 ≤ pend.count '\n'

/-- The part of a whitespace run before its first newline (it stays with the
    piece on the left of a split). -/
def beforeFirstNl (pend : Content) : Content := pend.takeWhile (fun c => c != '\n')

/-- The part of a whitespace run after its last newline (it stays with the
    piece on the right of a split). -/
def afterLastNl (pend : Content) : Content :=
  (pend.reverse.takeWhile (fun c => c != '\n')).reverse

/-- One pass of `re.split(r'\n\s*\n', content)`.  The regex matches a newline,
    a greedy run of whitespace, and a final newline, scanning left to right
    with backtracking, so each maximal whitespace run containing at least two
    newlines yields exactly one split: the match runs from the first to the
    last newline of the run, the whitespace before the first newline stays
    with the left piece and the whitespace after the last newline with the
    right piece.  `cur` is the piece built so far and `pend` the whitespace
    run currently being read. -/
def splitGo (cur pend : Content) : Content → List Content
  | [] =>
    if hasTwoNl pend then [cur ++ beforeFirstNl pend, afterLastNl pend]
    else [cur ++ pend]
  | c :: rest =>
    if isSpace c then splitGo cur (pend ++ [c]) rest
    else if hasTwoNl pend then
      (cur ++ beforeFirstNl pend) :: splitGo (afterLastNl pend ++ [c]) [] rest
    else splitGo (cur ++ pend ++ [c]) [] rest

/-- `re.split(r'\n\s*\n', content)`. -/
def splitBlank (content : Content) : List Content := splitGo [] [] content

/-- Python `s.strip()`: remove leading and trailing whitespace. -/
def strip (s : Content) : Content :=
  ((s.dropWhile isSpace).reverse.dropWhile isSpace).reverse

/-- Worker for Python `s.split()` (split on whitespace runs, no empty words);
    `cur` is the word being built. -/
def wordsGo (cur : Content) : Content → List Content
  | [] => if cur.isEmpty then [] else [cur]
  | c :: rest =>
    if isSpace c then
      if cur.isEmpty then wordsGo [] rest else cur :: wordsGo [] rest
    else wordsGo (cur ++ [c]) rest

/-- Python `s.split()`. -/
def pyWords (s : Content) : List Content := wordsGo [] s

/-- The normalised key of a paragraph (`normalized = ' '.join(para.split())` in
    the source; named `normalizeKey` here because Lean's library already owns
    the name `normalize`). -/
def normalizeKey (para : Content) : Content := joinSep [' '] (pyWords para)

/-- The paragraph list of one content block:
    `[p.strip() for p in re.split(r'\n\s*\n', content) if p.strip()]`. -/
def paragraphs (content : Content) : List Content :=
  ((splitBlank content).map strip).filter (fun p => !p.isEmpty)

/-- Body of the paragraph loop of `deduplicate_content`: the state is the
    `seen_paragraphs` ordered mapping (an association list grown on the right,
    like the Python `OrderedDict`) and the `duplicates` preview list. -/
def dedupStep (st : List (Content × Content) × List Content) (para : Content) :
    List (Content × Content) × List Content :=
  let normalized := normalizeKey para
  if normalized ∈ st.1.map Prod.fst then
    (st.1, st.2 ++ [para.take 50 ++ ellipsis])
  else
    (st.1 ++ [(normalized, para)], st.2)

/-- `deduplicate_content` from `prompt_composer.py`.  The `separator` argument
    is accepted and ignored, as in the source. -/
def deduplicate_content (contents : List Content) (separator : Content) :
    Content × List Content :=
  let st := contents.foldl (fun st content => (paragraphs content).foldl dedupStep st) ([], [])
  (joinSep nl2 (st.1.map Prod.snd), st.2)

/-- All paragraphs of all blocks, in block-then-paragraph order. -/
def allParas (contents : List Content) : List Content :=
  (contents.map paragraphs).flatten

/-- C4: deduplication is global across the input blocks and keeps first-seen
    block-then-paragraph order, joining survivors with two newlines: on
    `["A\n\nB", "C\n\nB"]` it returns `"A\n\nB\n\nC"` and records exactly one
    duplicate (the second `"B"`, previewed as `"B..."`); and a paragraph of the
    first block suppresses an identical paragraph of the third block even
    though another block intervenes. -/
theorem dedup_global_first_seen_order :
    deduplicate_content ["A\n\nB".toList, "C\n\nB".toList] "\n\n---\n\n".toList =
        ("A\n\nB\n\nC".toList, ["B...".toList]) ∧
      deduplicate_content ["X".toList, "Y".toList, "X".toList] "\n\n---\n\n".toList =
        ("X\n\nY".toList, ["X...".toList]) := by
  constructor
  · decide
  · decide

/-- Paragraphs retained by deduplication, written the way the spec describes
    it: a paragraph survives exactly when its whitespace-normalised key was not
    seen before, and it is kept with its original formatting. -/
def specKept (seen : List Content) : List Content → List Content
  | [] => []
  | p :: rest =>
    if normalizeKey p ∈ seen then specKept seen rest
    else p :: specKept (seen ++ [normalizeKey p]) rest

/-- Paragraphs discarded by deduplication, in order: those whose normalised
    key was already seen. -/
def specDropped (seen : List Content) : List Content → List Content
  | [] => []
  | p :: rest =>
    if normalizeKey p ∈ seen then p :: specDropped seen rest
    else specDropped (seen ++ [normalizeKey p]) rest

/-- The paragraph loop of `deduplicate_content` computes exactly the spec's
    first-seen kept list and duplicate-preview list. -/
theorem dedupFoldEq :
    ∀ (ps : List Content) (seen : List (Content × Content)) (dups : List Content),
      ps.foldl dedupStep (seen, dups) =
        (seen ++ (specKept (seen.map Prod.fst) ps).map (fun p => (normalizeKey p, p)),
         dups ++ (specDropped (seen.map Prod.fst) ps).map (fun p => p.take 50 ++ ellipsis)) := by
  intro ps
  induction ps with
  | nil => intro seen dups; simp [specKept, specDropped]
  | cons p rest ih =>
    intro seen dups
    rw [List.foldl_cons, specKept, specDropped]
    by_cases h : normalizeKey p ∈ seen.map Prod.fst
    · have hstep : dedupStep (seen, dups) p = (seen, dups ++ [p.take 50 ++ ellipsis]) := by
        simp [dedupStep, h]
      rw [hstep, if_pos h, if_pos h, ih]
      simp
    · have hstep : dedupStep (seen, dups) p =
          (seen ++ [(normalizeKey p, p)], dups) := by
        simp [dedupStep, h]
      rw [hstep, if_neg h, if_neg h, ih]
      simp

/-- The nested block/paragraph loops are one loop over all paragraphs in
    block-then-paragraph order. -/
theorem dedupBlocksEq :
    ∀ (contents : List Content) (st : List (Content × Content) × List Content),
      contents.foldl (fun st content => (paragraphs content).foldl dedupStep st) st =
        (allParas contents).foldl dedupStep st := by
  intro contents
  induction contents with
  | nil => intro st; simp [allParas]
  | cons c rest ih =>
    intro st
    rw [List.foldl_cons, ih]
    unfold allParas
    rw [List.map_cons, List.flatten_cons, List.foldl_append]

/-- `deduplicate_content`, restated through the spec-side kept/dropped lists. -/
theorem deduplicate_content_eq (contents : List Content) (separator : Content) :
    deduplicate_content contents separator =
      (joinSep nl2 (specKept [] (allParas contents)),
       (specDropped [] (allParas contents)).map (fun p => p.take 50 ++ ellipsis)) := by
  unfold deduplicate_content
  rw [dedupBlocksEq contents ([], []), dedupFoldEq]
  simp [Function.comp_def]

/-- A kept paragraph's key is new relative to the keys already seen. -/
theorem specKept_key_notMem :
    ∀ (ps : List Content) (seen : List Content) (p : Content),
      p ∈ specKept seen ps → normalizeKey p ∉ seen := by
  intro ps
  induction ps with
  | nil => intro seen p hp; simp [specKept] at hp
  | cons q rest ih =>
    intro seen p hp
    rw [specKept] at hp
    by_cases h : normalizeKey q ∈ seen
    · rw [if_pos h] at hp
      exact ih seen p hp
    · rw [if_neg h] at hp
      rcases List.mem_cons.mp hp with rfl | hp'
      · exact h
      · intro hmem
        exact ih (seen ++ [normalizeKey q]) p hp' (List.mem_append_left _ hmem)

/-- Every kept paragraph is the first paragraph carrying its normalised key. -/
theorem specKept_find :
    ∀ (ps : List Content) (seen : List Content) (p : Content),
      p ∈ specKept seen ps →
      ps.find? (fun q => normalizeKey q == normalizeKey p) = some p := by
  intro ps
  induction ps with
  | nil => intro seen p hp; simp [specKept] at hp
  | cons q rest ih =>
    intro seen p hp
    rw [specKept] at hp
    by_cases h : normalizeKey q ∈ seen
    · rw [if_pos h] at hp
      have hne : normalizeKey q ≠ normalizeKey p := by
        intro heq
        exact specKept_key_notMem rest seen p hp (heq ▸ h)
      rw [List.find?_cons_of_neg _ (by simpa using hne)]
      exact ih seen p hp
    · rw [if_neg h] at hp
      rcases List.mem_cons.mp hp with rfl | hp'
      · rw [List.find?_cons_of_pos _ (by simp)]
      · have hnotin := specKept_key_notMem rest (seen ++ [normalizeKey q]) p hp'
        have hne : normalizeKey q ≠ normalizeKey p := by
          intro heq
          exact hnotin (heq ▸ List.mem_append_right _ (List.mem_singleton.mpr rfl))
        rw [List.find?_cons_of_neg _ (by simpa using hne)]
        exact ih (seen ++ [normalizeKey q]) p hp'

/-- Every dropped paragraph shares its key with an already-seen one: either a
    key seen before this run, or a kept paragraph of this run. -/
theorem specDropped_has_seen :
    ∀ (ps : List Content) (seen : List Content) (p : Content),
      p ∈ specDropped seen ps →
      normalizeKey p ∈ seen ∨ ∃ q ∈ specKept seen ps, normalizeKey q = normalizeKey p := by
  intro ps
  induction ps with
  | nil => intro seen p hp; simp [specDropped] at hp
  | cons q rest ih =>
    intro seen p hp
    rw [specDropped] at hp
    rw [specKept]
    by_cases h : normalizeKey q ∈ seen
    · rw [if_pos h] at hp
      rw [if_pos h]
      rcases List.mem_cons.mp hp with rfl | hp'
      · exact Or.inl h
      · exact ih seen p hp'
    · rw [if_neg h] at hp
      rw [if_neg h]
      rcases ih (seen ++ [normalizeKey q]) p hp with hseen | ⟨r, hr, hkey⟩
      · rcases List.mem_append.mp hseen with hl | hr
        · exact Or.inl hl
        · exact Or.inr ⟨q, List.mem_cons_self _ _, (List.mem_singleton.mp hr).symm⟩
      · exact Or.inr ⟨r, List.mem_cons_of_mem _ hr, hkey⟩

/-- Kept paragraphs come from the input list. -/
theorem specKept_mem :
    ∀ (ps : List Content) (seen : List Content) (p : Content),
      p ∈ specKept seen ps → p ∈ ps := by
  intro ps
  induction ps with
  | nil => intro seen p hp; simp [specKept] at hp
  | cons q rest ih =>
    intro seen p hp
    rw [specKept] at hp
    by_cases h : normalizeKey q ∈ seen
    · rw [if_pos h] at hp
      exact List.mem_cons_of_mem _ (ih seen p hp)
    · rw [if_neg h] at hp
      rcases List.mem_cons.mp hp with rfl | hp'
      · exact List.mem_cons_self _ _
      · exact List.mem_cons_of_mem _ (ih _ p hp')

/-- The kept paragraphs carry pairwise distinct normalised keys. -/
theorem specKept_keys_nodup :
    ∀ (ps : List Content) (seen : List Content),
      ((specKept seen ps).map normalizeKey).Nodup := by
  intro ps
  induction ps with
  | nil => intro seen; simp [specKept]
  | cons q rest ih =>
    intro seen
    rw [specKept]
    by_cases h : normalizeKey q ∈ seen
    · rw [if_pos h]; exact ih seen
    · rw [if_neg h]
      rw [List.map_cons, List.nodup_cons]
      refine ⟨?_, ih _⟩
      intro hmem
      rcases List.mem_map.mp hmem with ⟨r, hr, hkey⟩
      exact specKept_key_notMem rest _ r hr
        (hkey ▸ List.mem_append_right _ (List.mem_singleton.mpr rfl))

/-- Running deduplication over paragraphs with pairwise distinct keys (none of
    them seen yet) keeps everything and drops nothing. -/
theorem spec_pass_of_nodup :
    ∀ (ps : List Content) (seen : List Content),
      (ps.map normalizeKey).Nodup → (∀ p ∈ ps, normalizeKey p ∉ seen) →
      specKept seen ps = ps ∧ specDropped seen ps = [] := by
  intro ps
  induction ps with
  | nil => intro seen _ _; simp [specKept, specDropped]
  | cons q rest ih =>
    intro seen hnodup hfresh
    rw [List.map_cons, List.nodup_cons] at hnodup
    have hq : normalizeKey q ∉ seen := hfresh q (List.mem_cons_self _ _)
    rw [specKept, specDropped, if_neg hq, if_neg hq]
    have hfresh' : ∀ p ∈ rest, normalizeKey p ∉ seen ++ [normalizeKey q] := by
      intro p hp hmem
      rcases List.mem_append.mp hmem with hl | hr
      · exact hfresh p (List.mem_cons_of_mem _ hp) hl
      · exact hnodup.1 (List.mem_singleton.mp hr ▸ List.mem_map_of_mem normalizeKey hp)
    rcases ih (seen ++ [normalizeKey q]) hnodup.2 hfresh' with ⟨hk, hd⟩
    exact ⟨by rw [hk], hd⟩

/-- C5: each retained paragraph is the first paragraph seen with its
    whitespace-normalised key, kept with its original formatting, and each
    later paragraph whose key was already seen is discarded, recorded as its
    first 50 characters followed by an ellipsis. -/
theorem dedup_first_seen_with_preview (contents : List Content) (separator : Content) :
    deduplicate_content contents separator =
        (joinSep nl2 (specKept [] (allParas contents)),
         (specDropped [] (allParas contents)).map (fun p => p.take 50 ++ ellipsis)) ∧
      (∀ p ∈ specKept [] (allParas contents),
        (allParas contents).find? (fun q => normalizeKey q == normalizeKey p) = some p) ∧
      (∀ p ∈ specDropped [] (allParas contents),
        ∃ q ∈ specKept [] (allParas contents), normalizeKey q = normalizeKey p) := by
  refine ⟨deduplicate_content_eq contents separator, ?_, ?_⟩
  · intro p hp
    exact specKept_find _ [] p hp
  · intro p hp
    rcases specDropped_has_seen _ [] p hp with hseen | hex
    · simp at hseen
    · exact hex

theorem dedup_first_seen_with_preview_witness :
    (allParas ["a\n\na".toList]).find?
        (fun q => normalizeKey q == normalizeKey "a".toList) = some "a".toList :=
  (dedup_first_seen_with_preview ["a\n\na".toList] "\n\n---\n\n".toList).2.1
    "a".toList (by decide)

/-! ### Idempotence machinery: pieces produced by the splitter re-split to
    themselves.  `ok2 n s` scans `s` carrying the number `n` of newlines in the
    whitespace run currently being read and asserts no run ever reaches two
    newlines, i.e. `s` holds no `\n\s*\n` match. -/

def ok2 : Nat → Content → Bool
  | _, [] => true
  | nl, c :: rest =>
    if c == '\n' then decide (nl + 1 < 2) && ok2 (nl + 1) rest
    else if isSpace c then ok2 nl rest
    else ok2 0 rest

/-- No whitespace run of `s` holds two newlines. -/
def cleanRuns (s : Content) : Bool := ok2 0 s

theorem ok2_mono :
    ∀ (s : Content) (m n : Nat), m ≤ n → ok2 n s = true → ok2 m s = true := by
  intro s
  induction s with
  | nil => intro m n _ _; rfl
  | cons c rest ih =>
    intro m n hmn h
    rw [ok2] at h ⊢
    by_cases hnl : (c == '\n') = true
    · rw [if_pos hnl] at h ⊢
      rw [Bool.and_eq_true] at h ⊢
      refine ⟨by simp at h ⊢; omega, ih (m + 1) (n + 1) (by omega) h.2⟩
    · rw [if_neg hnl] at h ⊢
      by_cases hws : isSpace c = true
      · rw [if_pos hws] at h ⊢
        exact ih m n hmn h
      · rw [if_neg hws] at h ⊢
        exact h

theorem ok2_append_left :
    ∀ (a : Content) (n : Nat) (b : Content), ok2 n (a ++ b) = true → ok2 n a = true := by
  intro a
  induction a with
  | nil => intro n b _; rfl
  | cons c rest ih =>
    intro n b h
    rw [List.cons_append, ok2] at h
    rw [ok2]
    by_cases hnl : (c == '\n') = true
    · rw [if_pos hnl] at h ⊢
      rw [Bool.and_eq_true] at h ⊢
      exact ⟨h.1, ih (n + 1) b h.2⟩
    · rw [if_neg hnl] at h ⊢
      by_cases hws : isSpace c = true
      · rw [if_pos hws] at h ⊢
        exact ih n b h
      · rw [if_neg hws] at h ⊢
        exact ih 0 b h

theorem cleanRuns_cons (c : Char) (rest : Content) (h : cleanRuns (c :: rest) = true) :
    cleanRuns rest = true := by
  unfold cleanRuns at h ⊢
  rw [ok2] at h
  by_cases hnl : (c == '\n') = true
  · rw [if_pos hnl, Bool.and_eq_true] at h
    exact ok2_mono rest 0 1 (by omega) h.2
  · rw [if_neg hnl] at h
    by_cases hws : isSpace c = true
    · rw [if_pos hws] at h; exact h
    · rw [if_neg hws] at h; exact h

theorem cleanRuns_append_right :
    ∀ (a b : Content), cleanRuns (a ++ b) = true → cleanRuns b = true := by
  intro a
  induction a with
  | nil => intro b h; exact h
  | cons c rest ih =>
    intro b h
    exact ih b (cleanRuns_cons c (rest ++ b) h)

theorem ok2_ws_nonl :
    ∀ (w : Content) (n : Nat), (∀ c ∈ w, isSpace c = true ∧ c ≠ '\n') → ok2 n w = true := by
  intro w
  induction w with
  | nil => intro n _; rfl
  | cons c rest ih =>
    intro n h
    have hc := h c (List.mem_cons_self _ _)
    rw [ok2, if_neg (by simpa using hc.2), if_pos hc.1]
    exact ih n fun d hd => h d (List.mem_cons_of_mem _ hd)

theorem ok2_append_ws_nonl :
    ∀ (a : Content) (n : Nat) (w : Content),
      ok2 n a = true → (∀ c ∈ w, isSpace c = true ∧ c ≠ '\n') → ok2 n (a ++ w) = true := by
  intro a
  induction a with
  | nil => intro n w _ hw; exact ok2_ws_nonl w n hw
  | cons c rest ih =>
    intro n w h hw
    rw [ok2] at h
    rw [List.cons_append, ok2]
    by_cases hnl : (c == '\n') = true
    · rw [if_pos hnl] at h ⊢
      rw [Bool.and_eq_true] at h ⊢
      exact ⟨h.1, ih (n + 1) w h.2 hw⟩
    · rw [if_neg hnl] at h ⊢
      by_cases hws : isSpace c = true
      · rw [if_pos hws] at h ⊢
        exact ih n w h hw
      · rw [if_neg hws] at h ⊢
        exact ih 0 w h hw

theorem ok2_ws_count :
    ∀ (w : Content) (n : Nat), (∀ c ∈ w, isSpace c = true) →
      n + w.count '\n' ≤ 1 → ok2 n w = true := by
  intro w
  induction w with
  | nil => intro n _ _; rfl
  | cons c rest ih =>
    intro n hws hcount
    have hc := hws c (List.mem_cons_self _ _)
    rw [ok2]
    by_cases hnl : (c == '\n') = true
    · rw [if_pos hnl, Bool.and_eq_true]
      have hcnt : (c :: rest).count '\n' = rest.count '\n' + 1 := by
        simp [List.count_cons, hnl]
      rw [hcnt] at hcount
      refine ⟨by simp; omega, ih (n + 1) (fun d hd => hws d (List.mem_cons_of_mem _ hd)) (by omega)⟩
    · rw [if_neg hnl, if_pos hc]
      have hcnt : (c :: rest).count '\n' = rest.count '\n' := by
        simp [List.count_cons, hnl]
      rw [hcnt] at hcount
      exact ih n (fun d hd => hws d (List.mem_cons_of_mem _ hd)) hcount

theorem nonws_ne_nl (c : Char) (hc : isSpace c = false) : (c == '\n') = false := by
  by_cases h : c = '\n'
  · subst h; exact absurd hc (by decide)
  · exact beq_eq_false_iff_ne.mpr h

theorem ok2_ws_count_concat :
    ∀ (w : Content) (n : Nat) (c : Char), (∀ d ∈ w, isSpace d = true) →
      n + w.count '\n' ≤ 1 → isSpace c = false → ok2 n (w ++ [c]) = true := by
  intro w
  induction w with
  | nil =>
    intro n c _ _ hc
    have hnl : (c == '\n') = false := nonws_ne_nl c hc
    rw [List.nil_append, ok2, if_neg (by simp [hnl]), if_neg (by simp [hc])]
    rfl
  | cons d rest ih =>
    intro n c hws hcount hc
    have hd := hws d (List.mem_cons_self _ _)
    rw [List.cons_append, ok2]
    by_cases hnl : (d == '\n') = true
    · rw [if_pos hnl, Bool.and_eq_true]
      have hcnt : (d :: rest).count '\n' = rest.count '\n' + 1 := by
        simp [List.count_cons, hnl]
      rw [hcnt] at hcount
      refine ⟨by simp; omega, ih (n + 1) c (fun x hx => hws x (List.mem_cons_of_mem _ hx)) (by omega) hc⟩
    · rw [if_neg hnl, if_pos hd]
      have hcnt : (d :: rest).count '\n' = rest.count '\n' := by
        simp [List.count_cons, hnl]
      rw [hcnt] at hcount
      exact ih n c (fun x hx => hws x (List.mem_cons_of_mem _ hx)) hcount hc

theorem ok2_append_of_last_nonws :
    ∀ (a : Content) (e : Char) (n : Nat) (b : Content),
      ok2 n (a ++ [e]) = true → isSpace e = false → ok2 0 b = true →
      ok2 n (a ++ [e] ++ b) = true := by
  intro a
  induction a with
  | nil =>
    intro e n b h he hb
    have hnl : (e == '\n') = false := nonws_ne_nl e he
    simp only [List.nil_append, List.cons_append]
    rw [ok2, if_neg (by simp [hnl]), if_neg (by simp [he])]
    exact hb
  | cons c rest ih =>
    intro e n b h he hb
    rw [List.cons_append, ok2] at h
    rw [List.cons_append, List.cons_append, ok2]
    by_cases hnl : (c == '\n') = true
    · rw [if_pos hnl] at h ⊢
      rw [Bool.and_eq_true] at h ⊢
      exact ⟨h.1, ih e (n + 1) b h.2 he hb⟩
    · rw [if_neg hnl] at h ⊢
      by_cases hws : isSpace c = true
      · rw [if_pos hws] at h ⊢
        exact ih e n b h he hb
      · rw [if_neg hws] at h ⊢
        exact ih e 0 b h he hb

/-- A piece under construction is empty or ends in a non-whitespace
    character. -/
def EndsNonWS (a : Content) : Prop :=
  a = [] ∨ ∃ b e, a = b ++ [e] ∧ isSpace e = false

theorem mem_takeWhile_pred {p : Char → Bool} :
    ∀ (l : Content) (c : Char), c ∈ l.takeWhile p → p c = true := by
  intro l
  induction l with
  | nil => intro c hc; simp [List.takeWhile] at hc
  | cons d rest ih =>
    intro c hc
    rw [List.takeWhile_cons] at hc
    by_cases hd : p d = true
    · rw [if_pos hd] at hc
      rcases List.mem_cons.mp hc with rfl | hc'
      · exact hd
      · exact ih c hc'
    · rw [if_neg hd] at hc
      simp at hc

theorem mem_takeWhile_mem {p : Char → Bool} :
    ∀ (l : Content) (c : Char), c ∈ l.takeWhile p → c ∈ l := by
  intro l
  induction l with
  | nil => intro c hc; simp [List.takeWhile] at hc
  | cons d rest ih =>
    intro c hc
    rw [List.takeWhile_cons] at hc
    by_cases hd : p d = true
    · rw [if_pos hd] at hc
      rcases List.mem_cons.mp hc with rfl | hc'
      · exact List.mem_cons_self _ _
      · exact List.mem_cons_of_mem _ (ih c hc')
    · rw [if_neg hd] at hc
      simp at hc

theorem mem_beforeFirstNl (pend : Content) (c : Char) (hc : c ∈ beforeFirstNl pend) :
    c ∈ pend ∧ c ≠ '\n' := by
  unfold beforeFirstNl at hc
  exact ⟨mem_takeWhile_mem pend c hc, by simpa using mem_takeWhile_pred pend c hc⟩

theorem mem_afterLastNl (pend : Content) (c : Char) (hc : c ∈ afterLastNl pend) :
    c ∈ pend ∧ c ≠ '\n' := by
  unfold afterLastNl at hc
  rw [List.mem_reverse] at hc
  refine ⟨?_, by simpa using mem_takeWhile_pred pend.reverse c hc⟩
  have := mem_takeWhile_mem pend.reverse c hc
  rwa [List.mem_reverse] at this

theorem afterLastNl_count (pend : Content) : (afterLastNl pend).count '\n' = 0 := by
  rw [List.count_eq_zero]
  intro hmem
  exact (mem_afterLastNl pend '\n' hmem).2 rfl

/-- A clean block followed by one whitespace run holding at most one newline
    and a closing non-whitespace character is clean. -/
theorem cleanRuns_append_wsc (a w : Content) (c : Char)
    (ha : cleanRuns a = true) (hend : EndsNonWS a)
    (hw : ∀ d ∈ w, isSpace d = true) (hcount : w.count '\n' ≤ 1)
    (hc : isSpace c = false) :
    cleanRuns (a ++ (w ++ [c])) = true := by
  rcases hend with rfl | ⟨b, e, rfl, he⟩
  · simpa using ok2_ws_count_concat w 0 c hw (by omega) hc
  · have hb := ok2_append_of_last_nonws b e 0 (w ++ [c]) ha he
      (ok2_ws_count_concat w 0 c hw (by omega) hc)
    simpa [List.append_assoc] using hb

/-- A clean block followed by one whitespace run holding at most one newline
    is clean. -/
theorem cleanRuns_append_ws (a w : Content)
    (ha : cleanRuns a = true) (hend : EndsNonWS a)
    (hw : ∀ d ∈ w, isSpace d = true) (hcount : w.count '\n' ≤ 1) :
    cleanRuns (a ++ w) = true := by
  rcases hend with rfl | ⟨b, e, rfl, he⟩
  · simpa using ok2_ws_count w 0 hw (by omega)
  · have hb := ok2_append_of_last_nonws b e 0 w ha he (ok2_ws_count w 0 hw (by omega))
    simpa [List.append_assoc] using hb

/-- Every piece emitted by the splitter holds no `\n\s*\n` match. -/
theorem piecesClean :
    ∀ (s cur pend : Content),
      cleanRuns cur = true → EndsNonWS cur → (∀ c ∈ pend, isSpace c = true) →
      ∀ p ∈ splitGo cur pend s, cleanRuns p = true := by
  intro s
  induction s with
  | nil =>
    intro cur pend hcur hend hpend p hp
    rw [splitGo] at hp
    by_cases h2 : hasTwoNl pend = true
    · rw [if_pos h2] at hp
      rcases List.mem_cons.mp hp with rfl | hp'
      · exact ok2_append_ws_nonl cur 0 (beforeFirstNl pend) hcur
          (fun d hd => ⟨hpend d (mem_beforeFirstNl pend d hd).1, (mem_beforeFirstNl pend d hd).2⟩)
      · rcases List.mem_singleton.mp hp' with rfl
        exact ok2_ws_nonl (afterLastNl pend) 0
          (fun d hd => ⟨hpend d (mem_afterLastNl pend d hd).1, (mem_afterLastNl pend d hd).2⟩)
    · rw [if_neg h2] at hp
      rcases List.mem_singleton.mp hp with rfl
      have hcount : pend.count '\n' ≤ 1 := by
        unfold hasTwoNl at h2
        simp at h2
        omega
      exact cleanRuns_append_ws cur pend hcur hend hpend hcount
  | cons c rest ih =>
    intro cur pend hcur hend hpend p hp
    rw [splitGo] at hp
    by_cases hws : isSpace c = true
    · rw [if_pos hws] at hp
      refine ih cur (pend ++ [c]) hcur hend ?_ p hp
      intro d hd
      rcases List.mem_append.mp hd with hl | hr
      · exact hpend d hl
      · rw [List.mem_singleton.mp hr]; exact hws
    · rw [if_neg hws] at hp
      rw [Bool.not_eq_true] at hws
      by_cases h2 : hasTwoNl pend = true
      · rw [if_pos h2] at hp
        rcases List.mem_cons.mp hp with rfl | hp'
        · exact ok2_append_ws_nonl cur 0 (beforeFirstNl pend) hcur
            (fun d hd => ⟨hpend d (mem_beforeFirstNl pend d hd).1, (mem_beforeFirstNl pend d hd).2⟩)
        · refine ih (afterLastNl pend ++ [c]) [] ?_ ?_ (by simp) p hp'
          · exact ok2_ws_count_concat (afterLastNl pend) 0 c
              (fun d hd => hpend d (mem_afterLastNl pend d hd).1)
              (by rw [afterLastNl_count]; omega) hws
          · exact Or.inr ⟨afterLastNl pend, c, rfl, hws⟩
      · rw [if_neg h2] at hp
        have hcount : pend.count '\n' ≤ 1 := by
          unfold hasTwoNl at h2
          simp at h2
          omega
        refine ih (cur ++ pend ++ [c]) [] ?_ ?_ (by simp) p hp
        · rw [List.append_assoc]
          exact cleanRuns_append_wsc cur pend c hcur hend hpend hcount hws
        · exact Or.inr ⟨cur ++ pend, c, by simp, hws⟩

theorem dropWhile_head_not :
    ∀ (l : Content) (c : Char) (rest : Content),
      l.dropWhile isSpace = c :: rest → isSpace c = false := by
  intro l
  induction l with
  | nil => intro c rest h; simp [List.dropWhile] at h
  | cons d t ih =>
    intro c rest h
    by_cases hd : isSpace d = true
    · rw [List.dropWhile_cons_of_pos hd] at h
      exact ih c rest h
    · rw [List.dropWhile_cons_of_neg hd, List.cons.injEq] at h
      rw [Bool.not_eq_true] at hd
      rw [← h.1]
      exact hd

/-- `strip p` is a middle part of `p`: the whitespace dropped in front and the
    whitespace dropped behind frame it. -/
theorem strip_decomp (p : Content) :
    ∃ post, p.dropWhile isSpace = strip p ++ post := by
  rcases List.dropWhile_suffix (l := (p.dropWhile isSpace).reverse) isSpace with ⟨w, hw⟩
  refine ⟨w.reverse, ?_⟩
  have : (p.dropWhile isSpace).reverse.reverse =
      (w ++ (p.dropWhile isSpace).reverse.dropWhile isSpace).reverse := by rw [hw]
  rw [List.reverse_reverse, List.reverse_append] at this
  exact this

theorem cleanRuns_strip (p : Content) (hp : cleanRuns p = true) :
    cleanRuns (strip p) = true := by
  rcases List.dropWhile_suffix (l := p) isSpace with ⟨t, ht⟩
  have hy : cleanRuns (p.dropWhile isSpace) = true := by
    refine cleanRuns_append_right t _ ?_
    rw [ht]
    exact hp
  rcases strip_decomp p with ⟨post, hpost⟩
  rw [hpost] at hy
  exact ok2_append_left (strip p) 0 post hy

theorem stripHead (p : Content) (c : Char) (rest : Content) (h : strip p = c :: rest) :
    isSpace c = false := by
  rcases strip_decomp p with ⟨post, hpost⟩
  rw [h, List.cons_append] at hpost
  exact dropWhile_head_not p c (rest ++ post) hpost

theorem stripLast (p : Content) (b : Content) (e : Char) (h : strip p = b ++ [e]) :
    isSpace e = false := by
  have hz : (p.dropWhile isSpace).reverse.dropWhile isSpace = e :: b.reverse := by
    have : (strip p).reverse = e :: b.reverse := by
      rw [h, List.reverse_append]
      simp
    rw [← this]
    unfold strip
    rw [List.reverse_reverse]
  exact dropWhile_head_not (p.dropWhile isSpace).reverse e b.reverse hz

/-- The paragraphs of any block are nonempty, begin and end with
    non-whitespace, and hold no `\n\s*\n` match. -/
theorem paraProps (content p : Content) (hp : p ∈ paragraphs content) :
    p ≠ [] ∧ cleanRuns p = true ∧
      (∀ c rest, p = c :: rest → isSpace c = false) ∧
      (∀ b e, p = b ++ [e] → isSpace e = false) := by
  unfold paragraphs at hp
  rcases List.mem_filter.mp hp with ⟨hmem, hne⟩
  rcases List.mem_map.mp hmem with ⟨q, hq, rfl⟩
  have hclean : cleanRuns q = true := by
    refine piecesClean content [] [] rfl (Or.inl rfl) (by simp) q ?_
    exact hq
  refine ⟨?_, cleanRuns_strip q hclean, fun c rest h => stripHead q c rest h,
    fun b e h => stripLast q b e h⟩
  intro hnil
  rw [hnil] at hne
  simp at hne

/-- A nonempty stretch with non-whitespace first and last characters is left
    unchanged by `strip`. -/
theorem strip_eq_self (k : Content)
    (hhead : ∀ c rest, k = c :: rest → isSpace c = false)
    (hlast : ∀ b e, k = b ++ [e] → isSpace e = false) :
    strip k = k := by
  cases hk : k with
  | nil => rfl
  | cons c rest =>
    have hc : isSpace c = false := hhead c rest hk
    unfold strip
    rw [List.dropWhile_cons_of_neg (by simp [hc])]
    obtain ⟨b, e, hbe⟩ : ∃ b e, c :: rest = b ++ [e] :=
      ⟨(c :: rest).dropLast, (c :: rest).getLast (by simp),
        (List.dropLast_append_getLast (by simp)).symm⟩
    have he : isSpace e = false := hlast b e (hk.trans hbe)
    rw [hbe]
    rw [show (b ++ [e]).reverse = e :: b.reverse by simp]
    rw [List.dropWhile_cons_of_neg (by simp [he])]
    rw [List.reverse_cons, List.reverse_reverse]

/-- Scanning a match-free stretch that ends in a non-whitespace character just
    moves it into the piece being built. -/
theorem scanThrough :
    ∀ (s : Content) (e : Char) (pend cur t : Content),
      isSpace e = false →
      ok2 (pend.count '\n') (s ++ [e]) = true →
      (∀ c ∈ pend, isSpace c = true) →
      pend.count '\n' ≤ 1 →
      splitGo cur pend ((s ++ [e]) ++ t) = splitGo (((cur ++ pend) ++ s) ++ [e]) [] t := by
  intro s
  induction s with
  | nil =>
    intro e pend cur t he _ _ hcount
    simp only [List.nil_append, List.append_nil]
    rw [List.cons_append, splitGo, if_neg (by simp [he])]
    rw [if_neg (by unfold hasTwoNl; simp; omega)]
    rw [List.append_assoc, List.nil_append]
  | cons c s' ih =>
    intro e pend cur t he hok hpend hcount
    rw [List.cons_append, List.cons_append, splitGo]
    rw [List.cons_append, ok2] at hok
    by_cases hws : isSpace c = true
    · rw [if_pos hws]
      by_cases hnl : (c == '\n') = true
      · rw [if_pos hnl, Bool.and_eq_true] at hok
        have hceq : c = '\n' := by simpa using hnl
        have hcnt : (pend ++ [c]).count '\n' = pend.count '\n' + 1 := by
          rw [List.count_append, hceq]
          simp
        have hok' : ok2 ((pend ++ [c]).count '\n') (s' ++ [e]) = true := by
          rw [hcnt]; exact hok.2
        have hcount' : (pend ++ [c]).count '\n' ≤ 1 := by
          rw [hcnt]
          have := hok.1
          simp at this
          omega
        have hpend' : ∀ d ∈ pend ++ [c], isSpace d = true := by
          intro d hd
          rcases List.mem_append.mp hd with hl | hr
          · exact hpend d hl
          · rw [List.mem_singleton.mp hr]; exact hws
        rw [ih e (pend ++ [c]) cur t he hok' hpend' hcount']
        congr 2
        simp [List.append_assoc]
      · rw [if_neg hnl, if_pos hws] at hok
        have hcnt : (pend ++ [c]).count '\n' = pend.count '\n' := by
          rw [List.count_append]
          have : c ≠ '\n' := by simpa using hnl
          simp [List.count_singleton, this]
        have hok' : ok2 ((pend ++ [c]).count '\n') (s' ++ [e]) = true := by
          rw [hcnt]; exact hok
        have hpend' : ∀ d ∈ pend ++ [c], isSpace d = true := by
          intro d hd
          rcases List.mem_append.mp hd with hl | hr
          · exact hpend d hl
          · rw [List.mem_singleton.mp hr]; exact hws
        rw [ih e (pend ++ [c]) cur t he hok' hpend' (by rw [hcnt]; exact hcount)]
        congr 2
        simp [List.append_assoc]
    · rw [if_neg hws]
      rw [Bool.not_eq_true] at hws
      rw [if_neg (by unfold hasTwoNl; simp; omega)]
      rw [if_neg (by simp [nonws_ne_nl c hws]), if_neg (by simp [hws])] at hok
      rw [ih e [] (cur ++ pend ++ [c]) t he (by simpa using hok) (by simp) (by simp)]
      congr 2
      simp [List.append_assoc]

/-- A clean stretch that starts and ends in non-whitespace splits to itself. -/
theorem splitGo_self (a : Content) (e : Char) (he : isSpace e = false)
    (hok : cleanRuns (a ++ [e]) = true) :
    splitGo [] [] (a ++ [e]) = [a ++ [e]] := by
  have h := scanThrough a e [] [] [] he (by simpa using hok) (by simp) (by simp)
  rw [List.append_nil] at h
  rw [h, splitGo, if_neg (by decide)]
  simp

theorem joinSep_head (sep : Content) (k : Content) (tl : List Content) :
    ∃ r, joinSep sep (k :: tl) = k ++ r := by
  cases tl with
  | nil => exact ⟨[], by simp [joinSep]⟩
  | cons k' tl' =>
    refine ⟨sep ++ joinSep sep (k' :: tl'), ?_⟩
    rw [joinSep, List.append_assoc]

/-- Splitting the two-newline join of clean, stripped, nonempty paragraphs
    recovers exactly those paragraphs. -/
theorem roundTrip :
    ∀ ks : List Content,
      (∀ k ∈ ks, k ≠ [] ∧ cleanRuns k = true ∧
        (∀ c rest, k = c :: rest → isSpace c = false) ∧
        (∀ b e, k = b ++ [e] → isSpace e = false)) →
      paragraphs (joinSep nl2 ks) = ks := by
  intro ks
  induction ks with
  | nil => intro _; decide
  | cons k tl ih =>
    intro hprops
    have hk := hprops k (List.mem_cons_self _ _)
    obtain ⟨b, e, hbe⟩ : ∃ b e, k = b ++ [e] :=
      ⟨k.dropLast, k.getLast hk.1, (List.dropLast_append_getLast hk.1).symm⟩
    have he : isSpace e = false := hk.2.2.2 b e hbe
    have hstrip : strip k = k := strip_eq_self k hk.2.2.1 hk.2.2.2
    cases tl with
    | nil =>
      show (((splitGo [] [] (joinSep nl2 [k])).map strip).filter fun p => !p.isEmpty) = [k]
      have hjoin : joinSep nl2 [k] = k := by simp [joinSep]
      rw [hjoin, hbe, splitGo_self b e he (by rw [← hbe]; exact hk.2.1), ← hbe]
      simp [hstrip, hk.1]
    | cons k' tl' =>
      have hk' := hprops k' (List.mem_cons_of_mem _ (List.mem_cons_self _ _))
      obtain ⟨c0, r0, hk0⟩ : ∃ c0 r0, k' = c0 :: r0 := by
        cases hx : k' with
        | nil => exact absurd hx hk'.1
        | cons c0 r0 => exact ⟨c0, r0, rfl⟩
      have hc0 : isSpace c0 = false := hk'.2.2.1 c0 r0 hk0
      obtain ⟨rI, hrI⟩ := joinSep_head nl2 k' tl'
      have hIhead : joinSep nl2 (k' :: tl') = c0 :: (r0 ++ rI) := by
        rw [hrI, hk0, List.cons_append]
      have hsplit : splitBlank (joinSep nl2 (k :: k' :: tl')) =
          k :: splitBlank (joinSep nl2 (k' :: tl')) := by
        unfold splitBlank
        rw [joinSep]
        have harr : (k ++ nl2) ++ joinSep nl2 (k' :: tl') =
            (b ++ [e]) ++ ('\n' :: '\n' :: joinSep nl2 (k' :: tl')) := by
          rw [hbe, List.append_assoc]
          rfl
        rw [harr,
          scanThrough b e [] [] ('\n' :: '\n' :: joinSep nl2 (k' :: tl')) he
            (by simpa using (hbe ▸ hk.2.1)) (by simp) (by simp)]
        simp only [List.nil_append]
        rw [splitGo, if_pos (by decide)]
        rw [splitGo, if_pos (by decide)]
        rw [hIhead]
        rw [splitGo, if_neg (by simp [hc0]), if_pos (by decide)]
        rw [splitGo, if_neg (by simp [hc0]), if_neg (by decide)]
        rw [← hbe]
        show (k ++ beforeFirstNl ['\n', '\n']) :: splitGo (afterLastNl ['\n', '\n'] ++ [c0]) [] (r0 ++ rI) =
          k :: splitGo (([] ++ []) ++ [c0]) [] (r0 ++ rI)
        rw [show beforeFirstNl ['\n', '\n'] = [] from rfl,
            show afterLastNl ['\n', '\n'] = [] from by decide]
        simp
      show (((splitBlank (joinSep nl2 (k :: k' :: tl'))).map strip).filter fun p => !p.isEmpty) =
        k :: k' :: tl'
      rw [hsplit, List.map_cons, hstrip, List.filter_cons]
      rw [if_pos (by simpa using hk.1)]
      have htail := ih fun x hx => hprops x (List.mem_cons_of_mem _ hx)
      unfold paragraphs at htail
      rw [htail]

/-- Paragraphs surviving a deduplication pass are paragraphs of some input
    block, so they are nonempty, stripped and match-free. -/
theorem specKept_paraProps (contents : List Content) (k : Content)
    (hk : k ∈ specKept [] (allParas contents)) :
    k ≠ [] ∧ cleanRuns k = true ∧
      (∀ c rest, k = c :: rest → isSpace c = false) ∧
      (∀ b e, k = b ++ [e] → isSpace e = false) := by
  have hmem : k ∈ allParas contents := specKept_mem _ [] k hk
  unfold allParas at hmem
  rcases List.mem_flatten.mp hmem with ⟨l, hl, hkl⟩
  rcases List.mem_map.mp hl with ⟨c, _, rfl⟩
  exact paraProps c k hkl

/-- C6: deduplication is idempotent: running `deduplicate_content` on the
    combined text of a first pass, treated as a single input block, returns
    that same text and an empty removed-duplicates list. -/
theorem dedup_idempotent (contents : List Content) (separator separator' : Content) :
    deduplicate_content [(deduplicate_content contents separator).1] separator' =
      ((deduplicate_content contents separator).1, []) := by
  have h1 : (deduplicate_content contents separator).1 =
      joinSep nl2 (specKept [] (allParas contents)) := by
    rw [deduplicate_content_eq]
  rw [h1, deduplicate_content_eq [joinSep nl2 (specKept [] (allParas contents))] separator']
  have hparas : allParas [joinSep nl2 (specKept [] (allParas contents))] =
      specKept [] (allParas contents) := by
    unfold allParas
    simp only [List.map_cons, List.map_nil, List.flatten_cons, List.flatten_nil,
      List.append_nil]
    exact roundTrip _ (fun k hk => specKept_paraProps contents k hk)
  rw [hparas]
  rcases spec_pass_of_nodup (specKept [] (allParas contents)) []
      (specKept_keys_nodup (allParas contents) []) (by simp) with ⟨hkeep, hdrop⟩
  rw [hkeep, hdrop]
  simp

/-! ### The composer -/

/-- Result of `load_prompts`, keeping the fields the composer reads: the
    resolved `(ref, content)` pairs in order, the per-reference error list
    (represented by the failing references), and the token total. -/
structure LoadResult where
  loaded : List (Content × Content)
  errors : List Content
  total_tokens : Nat
deriving DecidableEq

/-- One iteration of the reference loop of `load_prompts`: a reference that
    resolves appends exactly one entry to `loaded`, one that does not appends
    exactly one entry to `errors`.  The registry, database and file system
    behind the four `file:` / `shippopotamus:` / `custom:` / bare-name
    branches are abstracted into the `resolve` function; every branch of the
    source follows this success/error shape. -/
def loadStep (resolve : Content → Option Content) (acc : LoadResult) (ref : Content) :
    LoadResult :=
  match resolve ref with
  | some content =>
    ⟨acc.loaded ++ [(ref, content)], acc.errors, acc.total_tokens + estimate_tokens content⟩
  | none => ⟨acc.loaded, acc.errors ++ [ref], acc.total_tokens⟩

/-- `load_prompts` from `prompt_registry.py`. -/
def load_prompts (resolve : Content → Option Content) (prompt_refs : List Content) :
    LoadResult :=
  prompt_refs.foldl (loadStep resolve) ⟨[], [], 0⟩

/-- The dictionary returned by `compose_prompts`: either the top-level error
    shape (`{"error": ..., "errors": ...}`) or the composed result with the
    fields the claims mention (`trimmed` is present exactly when the budget
    branch ran). -/
inductive ComposeResult where
  | error (errors : List Content)
  | ok (content : Content) (tokens : Nat) (removed_duplicates : List Content)
      (trimmed : Option TrimInfo) (errors : List Content)
deriving DecidableEq

/-- `compose_prompts` from `prompt_composer.py`.  The Python guard
    `if max_tokens and composed_tokens > max_tokens:` tests the truthiness of
    `max_tokens`, so `None` and `0` both skip the trim branch; the explicit
    `m ≠ 0` conjunct models that truthiness test. -/
def compose_prompts (resolve : Content → Option Content) (prompt_refs : List Content)
    (deduplicate : Bool) (max_tokens : Option Nat) (separator : Content) : ComposeResult :=
  if (load_prompts resolve prompt_refs).loaded = [] then
    ComposeResult.error (load_prompts resolve prompt_refs).errors
  else
    match max_tokens with
    | some m =>
      if m ≠ 0 ∧ m < estimate_tokens
          (if deduplicate then
            (deduplicate_content ((load_prompts resolve prompt_refs).loaded.map Prod.snd)
              separator).1
          else joinSep separator ((load_prompts resolve prompt_refs).loaded.map Prod.snd)) then
        ComposeResult.ok
          (trim_to_budget ((load_prompts resolve prompt_refs).loaded.map Prod.snd) m
            separator).1
          (estimate_tokens
            (trim_to_budget ((load_prompts resolve prompt_refs).loaded.map Prod.snd) m
              separator).1)
          (if deduplicate then
            (deduplicate_content ((load_prompts resolve prompt_refs).loaded.map Prod.snd)
              separator).2
          else [])
          (some (trim_to_budget ((load_prompts resolve prompt_refs).loaded.map Prod.snd) m
            separator).2)
          (load_prompts resolve prompt_refs).errors
      else
        ComposeResult.ok
          (if deduplicate then
            (deduplicate_content ((load_prompts resolve prompt_refs).loaded.map Prod.snd)
              separator).1
          else joinSep separator ((load_prompts resolve prompt_refs).loaded.map Prod.snd))
          (estimate_tokens
            (if deduplicate then
              (deduplicate_content ((load_prompts resolve prompt_refs).loaded.map Prod.snd)
                separator).1
            else joinSep separator ((load_prompts resolve prompt_refs).loaded.map Prod.snd)))
          (if deduplicate then
            (deduplicate_content ((load_prompts resolve prompt_refs).loaded.map Prod.snd)
              separator).2
          else [])
          none
          (load_prompts resolve prompt_refs).errors
    | none =>
      ComposeResult.ok
        (if deduplicate then
          (deduplicate_content ((load_prompts resolve prompt_refs).loaded.map Prod.snd)
            separator).1
        else joinSep separator ((load_prompts resolve prompt_refs).loaded.map Prod.snd))
        (estimate_tokens
          (if deduplicate then
            (deduplicate_content ((load_prompts resolve prompt_refs).loaded.map Prod.snd)
              separator).1
          else joinSep separator ((load_prompts resolve prompt_refs).loaded.map Prod.snd)))
        (if deduplicate then
          (deduplicate_content ((load_prompts resolve prompt_refs).loaded.map Prod.snd)
            separator).2
        else [])
        none
        (load_prompts resolve prompt_refs).errors

/-- Is the composer's result the top-level error shape? -/
def ComposeResult.isError : ComposeResult → Bool
  | ComposeResult.error _ => true
  | ComposeResult.ok _ _ _ _ _ => false

/-- The reference loop of `load_prompts`, unfolded. -/
theorem loadFold (resolve : Content → Option Content) :
    ∀ (refs : List Content) (acc : LoadResult),
      refs.foldl (loadStep resolve) acc =
        ⟨acc.loaded ++ refs.filterMap (fun r => (resolve r).map (fun c => (r, c))),
         acc.errors ++ refs.filter (fun r => (resolve r).isNone),
         acc.total_tokens + ((refs.filterMap resolve).map estimate_tokens).sum⟩ := by
  intro refs
  induction refs with
  | nil => intro acc; simp
  | cons r rest ih =>
    intro acc
    rw [List.foldl_cons]
    cases hr : resolve r with
    | some content =>
      have hstep : loadStep resolve acc r =
          ⟨acc.loaded ++ [(r, content)], acc.errors,
           acc.total_tokens + estimate_tokens content⟩ := by
        simp [loadStep, hr]
      rw [hstep, ih]
      simp [List.filterMap_cons, List.filter_cons, hr, List.append_assoc]
      ring
    | none =>
      have hstep : loadStep resolve acc r =
          ⟨acc.loaded, acc.errors ++ [r], acc.total_tokens⟩ := by
        simp [loadStep, hr]
      rw [hstep, ih]
      simp [List.filterMap_cons, List.filter_cons, hr, List.append_assoc]

theorem load_prompts_eq (resolve : Content → Option Content) (refs : List Content) :
    load_prompts resolve refs =
      ⟨refs.filterMap (fun r => (resolve r).map (fun c => (r, c))),
       refs.filter (fun r => (resolve r).isNone),
       ((refs.filterMap resolve).map estimate_tokens).sum⟩ := by
  unfold load_prompts
  rw [loadFold]
  simp

theorem loaded_empty_iff (resolve : Content → Option Content) (refs : List Content) :
    (load_prompts resolve refs).loaded = [] ↔ ∀ r ∈ refs, resolve r = none := by
  rw [load_prompts_eq]
  simp only [List.filterMap_eq_nil_iff]
  constructor
  · intro h r hr
    have := h r hr
    cases hcase : resolve r with
    | none => rfl
    | some c => rw [hcase] at this; simp at this
  · intro h r hr
    rw [h r hr]
    rfl

theorem compose_isError_iff (resolve : Content → Option Content) (refs : List Content)
    (deduplicate : Bool) (max_tokens : Option Nat) (separator : Content) :
    (compose_prompts resolve refs deduplicate max_tokens separator).isError = true ↔
      (load_prompts resolve refs).loaded = [] := by
  unfold compose_prompts
  by_cases h : (load_prompts resolve refs).loaded = []
  · rw [if_pos h]
    simp [ComposeResult.isError, h]
  · rw [if_neg h]
    constructor
    · intro hx
      exfalso
      cases max_tokens with
      | none => simp [ComposeResult.isError] at hx
      | some m =>
        split at hx <;> (try split at hx) <;> (try split at hx) <;>
          simp [ComposeResult.isError] at hx
    · intro hx
      exact absurd hx h

/-- C9: reference resolution fails per reference, not globally: each
    unresolvable reference yields exactly one entry of the error list, which
    lists the failing references in order; the composer returns a top-level
    error exactly when no reference resolves; and with all references
    unresolvable the error list is as long as the reference list. -/
theorem compose_per_ref_errors (resolve : Content → Option Content)
    (prompt_refs : List Content) (deduplicate : Bool) (max_tokens : Option Nat)
    (separator : Content) :
    (load_prompts resolve prompt_refs).errors =
        prompt_refs.filter (fun r => (resolve r).isNone) ∧
      (load_prompts resolve prompt_refs).loaded =
        prompt_refs.filterMap (fun r => (resolve r).map (fun c => (r, c))) ∧
      ((compose_prompts resolve prompt_refs deduplicate max_tokens separator).isError = true ↔
        ∀ r ∈ prompt_refs, resolve r = none) ∧
      ((∀ r ∈ prompt_refs, resolve r = none) →
        (load_prompts resolve prompt_refs).errors.length = prompt_refs.length) := by
  refine ⟨by rw [load_prompts_eq], by rw [load_prompts_eq], ?_, ?_⟩
  · rw [compose_isError_iff, loaded_empty_iff]
  · intro hall
    rw [load_prompts_eq]
    show (prompt_refs.filter fun r => (resolve r).isNone).length = prompt_refs.length
    rw [List.filter_eq_self.mpr]
    intro r hr
    rw [hall r hr]
    rfl

theorem compose_per_ref_errors_witness :
    (load_prompts (fun _ => none) ["x".toList, "y".toList]).errors.length =
      (["x".toList, "y".toList] : List Content).length :=
  (compose_per_ref_errors (fun _ => none) ["x".toList, "y".toList] true none []).2.2.2
    (fun _ _ => rfl)

/-- C10: passing `max_tokens = 0` disables budget trimming entirely: because
    the budget check tests the truthiness of `max_tokens`, the zero budget
    behaves exactly like passing no budget at all, and a composition whose
    token estimate exceeds 0 is still returned untrimmed. -/
theorem compose_zero_budget_no_trim (resolve : Content → Option Content)
    (prompt_refs : List Content) (deduplicate : Bool) (separator : Content) :
    (compose_prompts resolve prompt_refs deduplicate (some 0) separator =
        compose_prompts resolve prompt_refs deduplicate none separator) ∧
      compose_prompts (fun _ => some (List.replicate 8 'a')) [['r']] false (some 0) [] =
        ComposeResult.ok (List.replicate 8 'a') 2 [] none [] ∧
      0 < estimate_tokens (List.replicate 8 'a') := by
  refine ⟨?_, by decide, by decide⟩
  unfold compose_prompts
  by_cases h : (load_prompts resolve prompt_refs).loaded = []
  · rw [if_pos h, if_pos h]
  · rw [if_neg h, if_neg h]
    simp

/-- C1 counterexample: with `deduplicate` set and the budget `max_tokens = 0`
    supplied, the deduplicated text's estimate (2) exceeds the budget, yet the
    composer returns the deduplicated text untrimmed — while the trimmer's
    output on the raw contents would be empty.  The claim fails for the
    supplied budget 0. -/
theorem compose_trim_counterexample :
    (0 : Nat) <
        estimate_tokens (deduplicate_content [List.replicate 8 'a'] []).1 ∧
      compose_prompts (fun _ => some (List.replicate 8 'a')) [['r']] true (some 0) [] =
        ComposeResult.ok (List.replicate 8 'a') 2 [] none [] ∧
      (trim_to_budget [List.replicate 8 'a'] 0 []).1 = [] := by
  refine ⟨by decide, by decide, by decide⟩

/-- C1 amended: with `deduplicate` set and a nonzero `max_tokens` supplied,
    if the deduplicated text's estimate exceeds the budget then the composer
    discards the deduplicated text and returns exactly the trimmer's output
    over the resolved, pre-deduplication contents (so duplicate paragraphs may
    reappear); the dedup previews remain in the metadata. -/
theorem compose_trim_supersedes_dedup (resolve : Content → Option Content)
    (prompt_refs : List Content) (m : Nat) (separator : Content)
    (hm : m ≠ 0)
    (hne : (load_prompts resolve prompt_refs).loaded ≠ [])
    (hover : m < estimate_tokens
      (deduplicate_content ((load_prompts resolve prompt_refs).loaded.map Prod.snd)
        separator).1) :
    compose_prompts resolve prompt_refs true (some m) separator =
      ComposeResult.ok
        (trim_to_budget ((load_prompts resolve prompt_refs).loaded.map Prod.snd) m
          separator).1
        (estimate_tokens
          (trim_to_budget ((load_prompts resolve prompt_refs).loaded.map Prod.snd) m
            separator).1)
        (deduplicate_content ((load_prompts resolve prompt_refs).loaded.map Prod.snd)
          separator).2
        (some (trim_to_budget ((load_prompts resolve prompt_refs).loaded.map Prod.snd) m
          separator).2)
        (load_prompts resolve prompt_refs).errors := by
  unfold compose_prompts
  rw [if_neg hne]
  simp only [if_true]
  rw [if_pos ⟨hm, by simpa using hover⟩]

theorem compose_trim_supersedes_dedup_witness :
    compose_prompts (fun _ => some (List.replicate 12 'a')) [['r'], ['s']] true (some 2) [] =
      ComposeResult.ok
        (trim_to_budget
          ((load_prompts (fun _ => some (List.replicate 12 'a'))
            [['r'], ['s']]).loaded.map Prod.snd) 2 []).1
        (estimate_tokens
          (trim_to_budget
            ((load_prompts (fun _ => some (List.replicate 12 'a'))
              [['r'], ['s']]).loaded.map Prod.snd) 2 []).1)
        (deduplicate_content
          ((load_prompts (fun _ => some (List.replicate 12 'a'))
            [['r'], ['s']]).loaded.map Prod.snd) []).2
        (some (trim_to_budget
          ((load_prompts (fun _ => some (List.replicate 12 'a'))
            [['r'], ['s']]).loaded.map Prod.snd) 2 []).2)
        (load_prompts (fun _ => some (List.replicate 12 'a')) [['r'], ['s']]).errors :=
  compose_trim_supersedes_dedup (fun _ => some (List.replicate 12 'a')) [['r'], ['s']] 2 []
    (by decide) (by decide) (by decide)

/-- C3 counterexample: composing two 3-character blocks under budget 1 with
    the default separator: the untrimmed composition estimates to 3 > 1, so the
    trim branch runs, yet it keeps both blocks (each estimating to 0 tokens),
    and the returned result estimates to 3 > max_tokens with zero dropped
    blocks — refuting both halves of the claim at once. -/
theorem compose_budget_counterexample :
    (1 : Nat) < estimate_tokens (joinSep "\n\n---\n\n".toList ["aaa".toList, "bbb".toList]) ∧
      compose_prompts
          (fun r => if r = ['1'] then some "aaa".toList else some "bbb".toList)
          [['1'], ['2']] false (some 1) "\n\n---\n\n".toList =
        ComposeResult.ok "aaa\n\n---\n\nbbb".toList 3 [] (some ⟨2, 0⟩) [] := by
  constructor
  · decide
  · decide

/-- C3 amended: when a nonzero budget is supplied and the untrimmed
    composition's estimate exceeds it, the composer returns the trimmer's
    output together with its kept/dropped counts; the sum of the kept blocks'
    individual token estimates is at most `max_tokens` (the estimate of the
    joined result itself can exceed the budget through separator overhead and
    per-block flooring), and at least one block is dropped whenever the
    blocks' total estimate exceeds the budget. -/
theorem compose_budget_over (resolve : Content → Option Content)
    (prompt_refs : List Content) (deduplicate : Bool) (m : Nat) (separator : Content)
    (hm : m ≠ 0)
    (hne : (load_prompts resolve prompt_refs).loaded ≠ [])
    (hover : m < estimate_tokens
      (if deduplicate then
        (deduplicate_content ((load_prompts resolve prompt_refs).loaded.map Prod.snd)
          separator).1
      else joinSep separator ((load_prompts resolve prompt_refs).loaded.map Prod.snd))) :
    (compose_prompts resolve prompt_refs deduplicate (some m) separator =
      ComposeResult.ok
        (joinSep separator
          (trimKeep m 0 ((load_prompts resolve prompt_refs).loaded.map Prod.snd)))
        (estimate_tokens (joinSep separator
          (trimKeep m 0 ((load_prompts resolve prompt_refs).loaded.map Prod.snd))))
        (if deduplicate then
          (deduplicate_content ((load_prompts resolve prompt_refs).loaded.map Prod.snd)
            separator).2
        else [])
        (some ⟨(trimKeep m 0 ((load_prompts resolve prompt_refs).loaded.map Prod.snd)).length,
          ((load_prompts resolve prompt_refs).loaded.map Prod.snd).length -
            (trimKeep m 0 ((load_prompts resolve prompt_refs).loaded.map Prod.snd)).length⟩)
        (load_prompts resolve prompt_refs).errors) ∧
      ((trimKeep m 0 ((load_prompts resolve prompt_refs).loaded.map Prod.snd)).map
        estimate_tokens).sum ≤ m ∧
      (m < (((load_prompts resolve prompt_refs).loaded.map Prod.snd).map
          estimate_tokens).sum →
        1 ≤ ((load_prompts resolve prompt_refs).loaded.map Prod.snd).length -
          (trimKeep m 0 ((load_prompts resolve prompt_refs).loaded.map Prod.snd)).length) := by
  refine ⟨?_, ?_, ?_⟩
  · have hcond : m ≠ 0 ∧ m < estimate_tokens
        (if deduplicate then
          (deduplicate_content ((load_prompts resolve prompt_refs).loaded.map Prod.snd)
            separator).1
        else joinSep separator ((load_prompts resolve prompt_refs).loaded.map Prod.snd)) :=
      ⟨hm, hover⟩
    unfold compose_prompts
    rw [if_neg hne]
    split
    · rename_i m2 heq
      obtain rfl : m = m2 := by injection heq
      split
      · rename_i hded
        rw [if_pos hded] at hcond
        rw [if_pos hcond, trim_to_budget_eq]
      · rename_i hded
        rw [if_neg hded] at hcond
        rw [if_pos hcond, trim_to_budget_eq]
    · rename_i heq
      exact absurd heq (by simp)
  · simpa using trimKeep_sum_le m ((load_prompts resolve prompt_refs).loaded.map Prod.snd) 0
      (Nat.zero_le m)
  · intro hgt
    have := trimKeep_lt_of_sum_gt m ((load_prompts resolve prompt_refs).loaded.map Prod.snd) hgt
    omega

theorem compose_budget_over_witness :
    1 ≤ ((load_prompts (fun _ => some (List.replicate 44 'a')) [['r']]).loaded.map
          Prod.snd).length -
        (trimKeep 5 0 ((load_prompts (fun _ => some (List.replicate 44 'a'))
          [['r']]).loaded.map Prod.snd)).length :=
  (compose_budget_over (fun _ => some (List.replicate 44 'a')) [['r']] false 5 []
    (by decide) (by decide) (by decide)).2.2 (by decide)
